import Mathlib

/-!
Shallow embedding of the core logic of the temperature-monitoring app:
the QR identity codec (`src/utils/qr.ts`), the keypad input normalizer
(`src/components/TempKeypad.tsx`), the numeric parser and the
threshold classifier (`app/(app)/logs/add.tsx`).

JavaScript strings are modelled as `List Char`; JavaScript numbers are
modelled exactly, as `ℚ` plus distinguished NaN/Infinity values
(float rounding and overflow-to-Infinity are abstracted away).
A JavaScript function that can throw is modelled with an explicit
error result.
-/

namespace TempApp

/-- The set of characters removed by JavaScript `String.prototype.trim`
(ECMAScript WhiteSpace and LineTerminator code points). -/
def jsWhitespace (c : Char) : Bool :=
  decide (c.toNat = 9 ∨ c.toNat = 10 ∨ c.toNat = 11 ∨ c.toNat = 12 ∨
    c.toNat = 13 ∨ c.toNat = 32 ∨ c.toNat = 0xA0 ∨ c.toNat = 0x1680 ∨
    (0x2000 ≤ c.toNat ∧ c.toNat ≤ 0x200A) ∨ c.toNat = 0x2028 ∨
    c.toNat = 0x2029 ∨ c.toNat = 0x202F ∨ c.toNat = 0x205F ∨
    c.toNat = 0x3000 ∨ c.toNat = 0xFEFF)

/-- JavaScript `String.prototype.trim`: drop whitespace from both ends. -/
def jsTrim (s : List Char) : List Char :=
  ((s.dropWhile jsWhitespace).reverse.dropWhile jsWhitespace).reverse

/-- The constant `QR_PREFIX` of `src/utils/qr.ts`:
`"temp-monitor://chiller/"`. -/
def QR_SCHEME : List Char := ("temp-monitor://chiller/" : String).data

/-- Value of a hexadecimal digit character, `none` if not a hex digit. -/
def hexVal? (c : Char) : Option Nat :=
  if '0' ≤ c ∧ c ≤ '9' then some (c.toNat - 48)
  else if 'A' ≤ c ∧ c ≤ 'F' then some (c.toNat - 55)
  else if 'a' ≤ c ∧ c ≤ 'f' then some (c.toNat - 87)
  else none

/-- A token of a percent-encoded string: either a literal character or
one `%HH` escape standing for the byte `HH`. -/
inductive PctTok : Type
  | raw (c : Char)
  | byte (b : Nat)
  deriving DecidableEq, Repr

/-- First phase of ECMAScript `decodeURIComponent`: read every `%HH`
escape down to its byte; `none` models the `URIError` thrown on an
escape that is cut short or has non-hex digits. -/
def pctTokens : List Char → Option (List PctTok)
  | [] => some []
  | c :: rest =>
    if c = '%' then
      match rest with
      | h1 :: h2 :: rest2 =>
        match hexVal? h1, hexVal? h2 with
        | some a, some b =>
          (pctTokens rest2).map (fun ts => PctTok.byte (16 * a + b) :: ts)
        | _, _ => none
      | _ => none
    else (pctTokens rest).map (fun ts => PctTok.raw c :: ts)

/-- A UTF-8 continuation byte. -/
def isContByte (b : Nat) : Bool := 0x80 ≤ b && b ≤ 0xBF

/-- Second phase of ECMAScript `decodeURIComponent`: reassemble escaped
bytes into code points, rejecting (as the thrown `URIError`, modelled
`none`) lone continuation bytes, missing or invalid continuations,
overlong forms, surrogate code points and values above `0x10FFFF`. -/
def utf8Decode : List PctTok → Option (List Char)
  | [] => some []
  | PctTok.raw c :: rest => (utf8Decode rest).map (fun cs => c :: cs)
  | PctTok.byte b :: rest =>
    if b < 0x80 then (utf8Decode rest).map (fun cs => Char.ofNat b :: cs)
    else if b < 0xC0 then none
    else if b < 0xE0 then
      match rest with
      | PctTok.byte b2 :: rest2 =>
        if isContByte b2 then
          let cp := (b - 0xC0) * 0x40 + (b2 - 0x80)
          if cp < 0x80 then none
          else (utf8Decode rest2).map (fun cs => Char.ofNat cp :: cs)
        else none
      | _ => none
    else if b < 0xF0 then
      match rest with
      | PctTok.byte b2 :: PctTok.byte b3 :: rest2 =>
        if isContByte b2 && isContByte b3 then
          let cp := (b - 0xE0) * 0x1000 + (b2 - 0x80) * 0x40 + (b3 - 0x80)
          if cp < 0x800 || (0xD800 ≤ cp && cp ≤ 0xDFFF) then none
          else (utf8Decode rest2).map (fun cs => Char.ofNat cp :: cs)
        else none
      | _ => none
    else if b < 0xF8 then
      match rest with
      | PctTok.byte b2 :: PctTok.byte b3 :: PctTok.byte b4 :: rest2 =>
        if isContByte b2 && isContByte b3 && isContByte b4 then
          let cp := (b - 0xF0) * 0x40000 + (b2 - 0x80) * 0x1000 +
            (b3 - 0x80) * 0x40 + (b4 - 0x80)
          if cp < 0x10000 || 0x10FFFF < cp then none
          else (utf8Decode rest2).map (fun cs => Char.ofNat cp :: cs)
        else none
      | _ => none
    else none

/-- ECMAScript `decodeURIComponent`; `none` models a thrown `URIError`. -/
def decodeURIComponent (s : List Char) : Option (List Char) :=
  (pctTokens s).bind utf8Decode

/-- The characters `encodeURIComponent` leaves unescaped:
`A–Z a–z 0–9 - _ . ! ~ * ' ( )` (given here by code point). -/
def unreservedChar (c : Char) : Bool :=
  decide ((65 ≤ c.toNat ∧ c.toNat ≤ 90) ∨ (97 ≤ c.toNat ∧ c.toNat ≤ 122) ∨
    (48 ≤ c.toNat ∧ c.toNat ≤ 57) ∨ c.toNat = 45 ∨ c.toNat = 95 ∨
    c.toNat = 46 ∨ c.toNat = 33 ∨ c.toNat = 126 ∨ c.toNat = 42 ∨
    c.toNat = 39 ∨ c.toNat = 40 ∨ c.toNat = 41)

/-- Upper-case hexadecimal digit for a value below 16. -/
def hexDigitUpper (n : Nat) : Char :=
  if n < 10 then Char.ofNat (48 + n) else Char.ofNat (55 + n)

/-- UTF-8 bytes of one code point. -/
def utf8Bytes (c : Char) : List Nat :=
  let n := c.toNat
  if n < 0x80 then [n]
  else if n < 0x800 then [0xC0 + n / 0x40, 0x80 + n % 0x40]
  else if n < 0x10000 then
    [0xE0 + n / 0x1000, 0x80 + n / 0x40 % 0x40, 0x80 + n % 0x40]
  else
    [0xF0 + n / 0x40000, 0x80 + n / 0x1000 % 0x40, 0x80 + n / 0x40 % 0x40,
      0x80 + n % 0x40]

/-- `%HH` escape of one byte. -/
def pctEscape (b : Nat) : List Char :=
  ['%', hexDigitUpper (b / 16), hexDigitUpper (b % 16)]

/-- ECMAScript `encodeURIComponent` on one character. -/
def encodeURIComponentChar (c : Char) : List Char :=
  if unreservedChar c then [c] else (utf8Bytes c).flatMap pctEscape

/-- ECMAScript `encodeURIComponent`. -/
def encodeURIComponent (s : List Char) : List Char :=
  s.flatMap encodeURIComponentChar

/-- `buildChillerQrValue` of `src/utils/qr.ts`:
`QR_PREFIX + encodeURIComponent(chillerId)`. -/
def buildChillerQrValue (chillerId : List Char) : List Char :=
  QR_SCHEME ++ encodeURIComponent chillerId

/-- One character of the bare-token fallback class `[a-zA-Z0-9_-]`. -/
def bareTokenChar (c : Char) : Bool :=
  c.isAlpha || c.isDigit || c == '_' || c == '-'

/-- The fallback test `/^[a-zA-Z0-9_-]{10,}$/.test s`. -/
def bareToken (s : List Char) : Bool :=
  10 ≤ s.length && s.all bareTokenChar

/-- Result of `parseChillerIdFromQr`: `err` models a thrown exception,
`noId` the `null` return, `found id` a returned identifier. -/
inductive QrResult : Type
  | err
  | noId
  | found (id : List Char)
  deriving DecidableEq, Repr

/-- `parseChillerIdFromQr` of `src/utils/qr.ts`.  The function trims the
input; if it starts with the scheme it strips it, percent-decodes the
remainder (a decode failure propagates as a thrown `URIError`, here
`err`), trims again and returns the result when non-empty; otherwise it
accepts a bare token of length ≥ 10; otherwise it returns `null`. -/
def parseChillerIdFromQr (value : List Char) : QrResult :=
  let s := jsTrim value
  if QR_SCHEME <+: s then
    match decodeURIComponent (s.drop QR_SCHEME.length) with
    | none => QrResult.err
    | some d =>
      let d2 := jsTrim d
      if d2 = [] then QrResult.noId else QrResult.found d2
  else if bareToken s then QrResult.found s
  else QrResult.noId

/-! ## Keypad normalizer (`src/components/TempKeypad.tsx`) -/

/-- The keypad `Mode`: `"signed-decimal" | "unsigned-decimal"`. -/
inductive Mode : Type
  | signedDecimal
  | unsignedDecimal
  deriving DecidableEq, Repr

/-- JavaScript `s.split(sep)` for a single-character separator (the
result is always non-empty, so `headI`/`tail` never hit the default). -/
def jsSplit (sep : Char) : List Char → List (List Char)
  | [] => [[]]
  | c :: rest =>
    let ps := jsSplit sep rest
    if c = sep then [] :: ps else (c :: ps.headI) :: ps.tail

/-- The dot-collapsing step of `normalizeInput`:
`if (parts.length > 2) s = parts[0] + "." + parts.slice(1).join("")`. -/
def dotCollapse (l : List Char) : List Char :=
  let ps := jsSplit '.' l
  if 2 < ps.length then ps.headI ++ '.' :: ps.tail.flatten else l

/-- `normalizeInput` of `TempKeypad.tsx`: replace every comma by a dot,
strip everything but digits, `-` and `.`, keep a minus only as a leading
character and only in signed mode, and collapse the dots by keeping the
first and concatenating the later segments. -/
def normalizeInput (raw : List Char) (mode : Mode) : List Char :=
  let s1 := raw.map (fun c => if c = ',' then '.' else c)
  let s2 := s1.filter (fun c => c.isDigit || c == '-' || c == '.')
  let allowMinus := mode = Mode.signedDecimal
  let startsMinus := s2.head? = some '-'
  let s3 := s2.filter (fun c => c != '-')
  let s4 := if allowMinus ∧ startsMinus then '-' :: s3 else s3
  dotCollapse s4

/-! ## JavaScript `Number(string)` (ECMAScript StringToNumber) -/

/-- A JavaScript number as far as this app observes it: NaN, a signed
infinity, or an exact finite value (float rounding is abstracted). -/
inductive JsNum : Type
  | nan
  | inf (neg : Bool)
  | val (q : ℚ)
  deriving DecidableEq

/-- Numeric value of a digit string, most significant first
(an empty string gives 0). -/
def natVal (s : List Char) : Nat :=
  s.foldl (fun a c => 10 * a + (c.toNat - 48)) 0

/-- All characters are decimal digits. -/
def allDigits (s : List Char) : Bool := s.all Char.isDigit

/-- `StrExponentPart` after the `e`/`E`: optional sign, then at least
one decimal digit. -/
def expInt? (s : List Char) : Option ℤ :=
  if s.head? = some '+' then
    if s.tail ≠ [] ∧ allDigits s.tail then some ((natVal s.tail : ℤ)) else none
  else if s.head? = some '-' then
    if s.tail ≠ [] ∧ allDigits s.tail then some (-(natVal s.tail : ℤ))
    else none
  else if s ≠ [] ∧ allDigits s then some ((natVal s : ℤ)) else none

/-- The significand of a decimal literal: `digits`, `digits.digits?`,
or `.digits` (full match, at least one digit overall). -/
def mantissa? (s : List Char) : Option ℚ :=
  match jsSplit '.' s with
  | [ip] => if ip ≠ [] ∧ allDigits ip then some (natVal ip : ℚ) else none
  | [ip, fp] =>
    if (ip ≠ [] ∨ fp ≠ []) ∧ allDigits ip ∧ allDigits fp then
      some ((natVal ip : ℚ) + (natVal fp : ℚ) / (10 : ℚ) ^ fp.length)
    else none
  | _ => none

/-- A character that does not start the exponent part. -/
def notExpChar (c : Char) : Bool := !(c == 'e' || c == 'E')

/-- `StrUnsignedDecimalLiteral` without the `Infinity` case:
significand with an optional exponent part. -/
def strUnsignedDecimal? (s : List Char) : Option ℚ :=
  let mant := s.takeWhile notExpChar
  match s.dropWhile notExpChar with
  | [] => mantissa? mant
  | _ :: expPart =>
    match mantissa? mant, expInt? expPart with
    | some m, some e => some (m * (10 : ℚ) ^ e)
    | _, _ => none

/-- A signed decimal literal or `Infinity`. -/
def strSignedPart (neg : Bool) (r : List Char) : JsNum :=
  if r = ("Infinity" : String).data then JsNum.inf neg
  else
    match strUnsignedDecimal? r with
    | some q => JsNum.val (if neg then -q else q)
    | none => JsNum.nan

/-- Digit test for a non-decimal radix (2, 8 or 16). -/
def isRadixDigit (base : Nat) (c : Char) : Bool :=
  match hexVal? c with
  | some v => v < base
  | none => false

/-- Digit value in a non-decimal radix. -/
def radixDigitVal (c : Char) : Nat := (hexVal? c).getD 0

/-- Value of a non-empty string of radix digits. -/
def radixNat? (base : Nat) (s : List Char) : Option Nat :=
  if s ≠ [] ∧ s.all (isRadixDigit base) then
    some (s.foldl (fun a c => base * a + radixDigitVal c) 0)
  else none

/-- `StrNumericLiteral` on an already trimmed string: empty means `+0`;
`0x`/`0o`/`0b` literals take no sign; otherwise an optional sign
followed by `Infinity` or an unsigned decimal literal. -/
def strNumericValue (s : List Char) : JsNum :=
  if s = [] then JsNum.val 0
  else if s.take 2 = ['0', 'x'] ∨ s.take 2 = ['0', 'X'] then
    match radixNat? 16 (s.drop 2) with
    | some n => JsNum.val (n : ℚ)
    | none => JsNum.nan
  else if s.take 2 = ['0', 'o'] ∨ s.take 2 = ['0', 'O'] then
    match radixNat? 8 (s.drop 2) with
    | some n => JsNum.val (n : ℚ)
    | none => JsNum.nan
  else if s.take 2 = ['0', 'b'] ∨ s.take 2 = ['0', 'B'] then
    match radixNat? 2 (s.drop 2) with
    | some n => JsNum.val (n : ℚ)
    | none => JsNum.nan
  else if s.head? = some '+' then strSignedPart false s.tail
  else if s.head? = some '-' then strSignedPart true s.tail
  else strSignedPart false s

/-- JavaScript `Number(s)` for a string argument: trim, then apply the
`StrNumericLiteral` grammar; anything else is NaN. -/
def jsNumber (s : List Char) : JsNum :=
  strNumericValue (jsTrim s)

/-! ## `parseNumber` and the auto-status effect (`app/(app)/logs/add.tsx`) -/

/-- Result of `parseNumber`: `null` (no value), the `"nan"` marker, or
a finite numeric value. -/
inductive ParseResult : Type
  | empty
  | invalid
  | val (q : ℚ)
  deriving DecidableEq

/-- JavaScript `s.replace(from, to)` with one-character string
arguments: replaces only the first occurrence. -/
def replaceFirst : List Char → Char → Char → List Char
  | [], _, _ => []
  | c :: rest, a, b =>
    if c = a then b :: rest else c :: replaceFirst rest a b

/-- `parseNumber` of `app/(app)/logs/add.tsx`: trim; empty gives `null`;
a bare `-`, `.` or `-.` gives `"nan"`; otherwise replace the first comma
by a period, convert with `Number`, and reject non-finite results. -/
def parseNumber (v : List Char) : ParseResult :=
  let t := jsTrim v
  if t = [] then ParseResult.empty
  else if t = ['-'] ∨ t = ['.'] ∨ t = ['-', '.'] then ParseResult.invalid
  else
    match jsNumber (replaceFirst t ',' '.') with
    | JsNum.val q => ParseResult.val q
    | _ => ParseResult.invalid

/-- The status tiers. -/
inductive Status : Type
  | ok
  | warning
  | damaged
  deriving DecidableEq, Repr

/-- `min != null && t < min` of the auto-warning effect. -/
def isLowTemp (t : ℚ) : Option ℚ → Bool
  | none => false
  | some m => decide (t < m)

/-- `max != null && t > max` of the auto-warning effect. -/
def isHighTemp (t : ℚ) : Option ℚ → Bool
  | none => false
  | some m => decide (m < t)

/-- The auto-warning effect of `AddLog`: given the temperature input
string, the current status and the chiller's optional bounds, it leaves
the status alone when the input does not parse or the status is
`damaged`; with no bounds it resets to `ok`; otherwise it sets
`warning` exactly when the value is below `minTemp` or above
`maxTemp`, and `ok` otherwise. -/
def classify (tempC : List Char) (status : Status) (minT maxT : Option ℚ) :
    Status :=
  match parseNumber tempC with
  | ParseResult.empty => status
  | ParseResult.invalid => status
  | ParseResult.val t =>
    if status = Status.damaged then status
    else if minT = none ∧ maxT = none then Status.ok
    else if isLowTemp t minT || isHighTemp t maxT then Status.warning
    else Status.ok

/-! ## Helper lemmas about trimming and percent-decoding -/

theorem dropWhile_eq_self_of_all {p : Char → Bool} {l : List Char}
    (h : ∀ c ∈ l, p c = false) : l.dropWhile p = l := by
  cases l with
  | nil => rfl
  | cons c t => simp [List.dropWhile_cons, h c (List.mem_cons_self c t)]

theorem jsTrim_eq_self_of_all {l : List Char}
    (h : ∀ c ∈ l, jsWhitespace c = false) : jsTrim l = l := by
  unfold jsTrim
  rw [dropWhile_eq_self_of_all h,
    dropWhile_eq_self_of_all (fun c hc => h c (List.mem_reverse.mp hc)),
    List.reverse_reverse]

theorem unreserved_not_ws {c : Char} (h : unreservedChar c = true) :
    jsWhitespace c = false := by
  simp only [unreservedChar, decide_eq_true_eq] at h
  simp only [jsWhitespace, decide_eq_false_iff_not]
  omega

theorem unreserved_ne_pct {c : Char} (h : unreservedChar c = true) :
    c ≠ '%' := by
  intro e
  rw [e] at h
  exact absurd h (by decide)

theorem scheme_not_ws : ∀ c ∈ QR_SCHEME, jsWhitespace c = false := by decide

theorem encode_eq_self_of_safe {x : List Char}
    (h : ∀ c ∈ x, unreservedChar c = true) : encodeURIComponent x = x := by
  induction x with
  | nil => rfl
  | cons c t ih =>
    have hc : encodeURIComponentChar c = [c] := by
      simp [encodeURIComponentChar, h c (List.mem_cons_self c t)]
    calc encodeURIComponent (c :: t)
        = encodeURIComponentChar c ++ encodeURIComponent t := by
          simp [encodeURIComponent]
      _ = c :: t := by
          rw [hc, ih (fun c hc => h c (List.mem_cons_of_mem _ hc))]
          rfl

theorem pctTokens_cons_ne (c : Char) (t : List Char) (hc : ¬ c = '%') :
    pctTokens (c :: t) = (pctTokens t).map (fun ts => PctTok.raw c :: ts) := by
  match t with
  | h1 :: h2 :: rest2 => rw [pctTokens.eq_2, if_neg hc]
  | [] => rw [pctTokens.eq_3 c [] (by simp), if_neg hc]
  | [h] => rw [pctTokens.eq_3 c [h] (by simp), if_neg hc]

theorem utf8Decode_raw_cons (c : Char) (ts : List PctTok) :
    utf8Decode (PctTok.raw c :: ts) =
      (utf8Decode ts).map (fun cs => c :: cs) := rfl

theorem pctTokens_of_no_pct {x : List Char} (h : ∀ c ∈ x, c ≠ '%') :
    pctTokens x = some (x.map PctTok.raw) := by
  induction x with
  | nil => rfl
  | cons c t ih =>
    rw [pctTokens_cons_ne c t (h c (List.mem_cons_self c t)),
      ih (fun c hc => h c (List.mem_cons_of_mem _ hc))]
    rfl

theorem utf8Decode_map_raw (x : List Char) :
    utf8Decode (x.map PctTok.raw) = some x := by
  induction x with
  | nil => rfl
  | cons c t ih =>
    rw [List.map_cons, utf8Decode_raw_cons, ih]
    rfl

theorem decode_eq_self_of_no_pct {x : List Char} (h : ∀ c ∈ x, c ≠ '%') :
    decodeURIComponent x = some x := by
  rw [decodeURIComponent, pctTokens_of_no_pct h]
  exact utf8Decode_map_raw x

/-! ## The QR claims -/

/-- C1: the claim says decode is total and never throws; the code calls
`decodeURIComponent` with no try/catch, so a prefixed payload with a
malformed percent-escape makes `parseChillerIdFromQr` throw `URIError`
instead of returning `null` — evaluated here on the concrete failing
input `"temp-monitor://chiller/%ZZ"`. -/
theorem C1_decode_throws_on_malformed_escape :
    parseChillerIdFromQr (("temp-monitor://chiller/%ZZ" : String).data) =
      QrResult.err := by decide

/-- C2: for every non-empty identifier over the unreserved alphabet
(the characters `encodeURIComponent` passes through unchanged),
decoding the built QR value returns exactly the identifier. -/
theorem C2_roundtrip (x : List Char) (hne : x ≠ [])
    (hsafe : ∀ c ∈ x, unreservedChar c = true) :
    parseChillerIdFromQr (buildChillerQrValue x) = QrResult.found x := by
  have henc : encodeURIComponent x = x := encode_eq_self_of_safe hsafe
  have hall : ∀ c ∈ QR_SCHEME ++ x, jsWhitespace c = false := by
    intro c hc
    rcases List.mem_append.mp hc with h | h
    · exact scheme_not_ws c h
    · exact unreserved_not_ws (hsafe c h)
  have hdec : decodeURIComponent x = some x :=
    decode_eq_self_of_no_pct (fun c hc => unreserved_ne_pct (hsafe c hc))
  have htrx : jsTrim x = x :=
    jsTrim_eq_self_of_all (fun c hc => unreserved_not_ws (hsafe c hc))
  simp only [parseChillerIdFromQr, buildChillerQrValue, henc,
    jsTrim_eq_self_of_all hall, if_pos (show QR_SCHEME <+: QR_SCHEME ++ x from ⟨x, rfl⟩),
    List.drop_left, hdec, htrx, if_neg hne]

theorem C2_roundtrip_witness :
    parseChillerIdFromQr (buildChillerQrValue (("chiller-01" : String).data))
      = QrResult.found (("chiller-01" : String).data) :=
  C2_roundtrip _ (by decide) (by decide)

/-- C8: on a payload whose trimmed text starts with the scheme, decode
strips the scheme, percent-decodes, trims again, and returns the result
exactly when non-empty; the scheme path has no minimum length, so the
scheme followed by `"abc"` yields `"abc"` although bare `"abc"` is
rejected. -/
theorem C8_scheme_path :
    (∀ s rest d, jsTrim s = QR_SCHEME ++ rest →
      decodeURIComponent rest = some d →
      parseChillerIdFromQr s =
        (if jsTrim d = [] then QrResult.noId
          else QrResult.found (jsTrim d))) ∧
    parseChillerIdFromQr (QR_SCHEME ++ ("abc" : String).data) =
      QrResult.found (("abc" : String).data) ∧
    parseChillerIdFromQr (("abc" : String).data) = QrResult.noId := by
  refine ⟨?_, by decide, by decide⟩
  intro s rest d htrim hdec
  simp only [parseChillerIdFromQr, htrim,
    if_pos (show QR_SCHEME <+: QR_SCHEME ++ rest from ⟨rest, rfl⟩), List.drop_left, hdec]

theorem C8_scheme_path_witness :
    parseChillerIdFromQr (("temp-monitor://chiller/%20x" : String).data) =
      QrResult.found ['x'] :=
  C8_scheme_path.1 (("temp-monitor://chiller/%20x" : String).data)
    (("%20x" : String).data) ([' ', 'x']) (by decide) (by decide)

/-- C9: on a payload whose trimmed text does not start with the scheme,
decode returns the trimmed text exactly when it matches the bare-token
pattern (alphanumerics, underscore, hyphen, length at least 10), and
`null` otherwise. -/
theorem C9_bare_fallback :
    (∀ s, ¬ (QR_SCHEME <+: jsTrim s) →
      parseChillerIdFromQr s =
        (if bareToken (jsTrim s) then QrResult.found (jsTrim s)
          else QrResult.noId)) ∧
    parseChillerIdFromQr (("abcdefghij" : String).data) =
      QrResult.found (("abcdefghij" : String).data) ∧
    parseChillerIdFromQr (("short" : String).data) = QrResult.noId := by
  refine ⟨?_, by decide, by decide⟩
  intro s h
  simp only [parseChillerIdFromQr, if_neg h]

theorem C9_bare_fallback_witness :
    parseChillerIdFromQr (("abcdefghij_123" : String).data) =
      QrResult.found (("abcdefghij_123" : String).data) := by
  have h := C9_bare_fallback.1 (("abcdefghij_123" : String).data) (by decide)
  rw [h]
  decide

/-! ## Keypad normalizer: the buffer grammar invariant -/

/-- Whether a mode permits a leading minus. -/
def modeAllowsMinus : Mode → Bool
  | Mode.signedDecimal => true
  | Mode.unsignedDecimal => false

/-- The buffer with a leading minus removed. -/
def bodyOf (s : List Char) : List Char :=
  if s.head? = some '-' then s.tail else s

/-- The buffer grammar `-?[0-9]*(\.[0-9]*)?`: after an optional leading
minus (permitted only when the mode allows it) there are only digits
and at most one dot. -/
def goodBuffer (s : List Char) (allowMinus : Bool) : Prop :=
  (s.head? = some '-' → allowMinus = true) ∧
  (∀ c ∈ bodyOf s, c.isDigit = true ∨ c = '.') ∧
  (bodyOf s).count '.' ≤ 1

theorem jsSplit_cons (sep c : Char) (rest : List Char) :
    jsSplit sep (c :: rest) =
      if c = sep then [] :: jsSplit sep rest
      else (c :: (jsSplit sep rest).headI) :: (jsSplit sep rest).tail := rfl

theorem jsSplit_ne_nil (sep : Char) (l : List Char) : jsSplit sep l ≠ [] := by
  cases l with
  | nil => simp [jsSplit]
  | cons c rest =>
    rw [jsSplit_cons]
    split <;> simp

theorem length_jsSplit (sep : Char) (l : List Char) :
    (jsSplit sep l).length = l.count sep + 1 := by
  induction l with
  | nil => rfl
  | cons c rest ih =>
    rw [jsSplit_cons]
    obtain ⟨q, qs, hq⟩ := List.exists_cons_of_ne_nil (jsSplit_ne_nil sep rest)
    by_cases hc : c = sep
    · rw [if_pos hc]
      simp only [List.length_cons, ih, List.count_cons, hc]
      simp
    · rw [if_neg hc, hq]
      rw [hq] at ih
      simp only [List.length_cons, List.headI, List.tail_cons] at ih ⊢
      rw [List.count_cons_of_ne (fun e => hc e.symm)]
      omega

theorem mem_of_mem_jsSplit {sep : Char} {l p : List Char} {c : Char}
    (hp : p ∈ jsSplit sep l) (hc : c ∈ p) : c ∈ l := by
  induction l generalizing p with
  | nil =>
    simp only [jsSplit, List.mem_singleton] at hp
    subst hp
    cases hc
  | cons a rest ih =>
    rw [jsSplit_cons] at hp
    obtain ⟨q, qs, hq⟩ := List.exists_cons_of_ne_nil (jsSplit_ne_nil sep rest)
    by_cases ha : a = sep
    · rw [if_pos ha] at hp
      rcases List.mem_cons.mp hp with rfl | hp'
      · cases hc
      · exact List.mem_cons_of_mem a (ih hp' hc)
    · rw [if_neg ha, hq] at hp
      simp only [List.headI, List.tail_cons] at hp
      rcases List.mem_cons.mp hp with rfl | hp'
      · rcases List.mem_cons.mp hc with rfl | hcq
        · exact List.mem_cons_self _ _
        · exact List.mem_cons_of_mem a
            (ih (p := q) (hq ▸ List.mem_cons_self q qs) hcq)
      · exact List.mem_cons_of_mem a
          (ih (hq ▸ List.mem_cons_of_mem q hp') hc)

theorem not_sep_of_mem_jsSplit {sep : Char} {l p : List Char} {c : Char}
    (hp : p ∈ jsSplit sep l) (hc : c ∈ p) : c ≠ sep := by
  induction l generalizing p with
  | nil =>
    simp only [jsSplit, List.mem_singleton] at hp
    subst hp
    cases hc
  | cons a rest ih =>
    rw [jsSplit_cons] at hp
    obtain ⟨q, qs, hq⟩ := List.exists_cons_of_ne_nil (jsSplit_ne_nil sep rest)
    by_cases ha : a = sep
    · rw [if_pos ha] at hp
      rcases List.mem_cons.mp hp with rfl | hp'
      · cases hc
      · exact ih hp' hc
    · rw [if_neg ha, hq] at hp
      simp only [List.headI, List.tail_cons] at hp
      rcases List.mem_cons.mp hp with rfl | hp'
      · rcases List.mem_cons.mp hc with rfl | hcq
        · exact ha
        · exact ih (p := q) (hq ▸ List.mem_cons_self q qs) hcq
      · exact ih (hq ▸ List.mem_cons_of_mem q hp') hc

theorem dotCollapse_of_le {l : List Char} (h : l.count '.' ≤ 1) :
    dotCollapse l = l := by
  unfold dotCollapse
  rw [if_neg]
  rw [length_jsSplit]
  omega

theorem dotCollapse_cons_ne (c : Char) (l : List Char) (hc : ¬ c = '.') :
    dotCollapse (c :: l) = c :: dotCollapse l := by
  unfold dotCollapse
  rw [jsSplit_cons, if_neg hc]
  obtain ⟨q, qs, hq⟩ := List.exists_cons_of_ne_nil (jsSplit_ne_nil '.' l)
  rw [hq]
  simp only [List.headI, List.tail_cons, List.length_cons]
  by_cases h2 : 2 < qs.length + 1
  · rw [if_pos h2, if_pos h2]
    rfl
  · rw [if_neg h2, if_neg h2]

theorem dotCollapse_good {l : List Char}
    (h : ∀ c ∈ l, c.isDigit = true ∨ c = '.') :
    (∀ c ∈ dotCollapse l, c.isDigit = true ∨ c = '.') ∧
      (dotCollapse l).count '.' ≤ 1 := by
  unfold dotCollapse
  by_cases h2 : 2 < (jsSplit '.' l).length
  · rw [if_pos h2]
    obtain ⟨q, qs, hq⟩ := List.exists_cons_of_ne_nil (jsSplit_ne_nil '.' l)
    rw [hq]
    simp only [List.headI, List.tail_cons]
    have hq0 : ∀ c ∈ q, c.isDigit = true := by
      intro c hc
      have hmem := mem_of_mem_jsSplit (hq ▸ List.mem_cons_self q qs) hc
      rcases h c hmem with hd | hdot
      · exact hd
      · exact absurd hdot (not_sep_of_mem_jsSplit (hq ▸ List.mem_cons_self q qs) hc)
    have hqs : ∀ p ∈ qs, ∀ c ∈ p, c.isDigit = true := by
      intro p hp c hc
      have hpmem : p ∈ jsSplit '.' l := hq ▸ List.mem_cons_of_mem q hp
      rcases h c (mem_of_mem_jsSplit hpmem hc) with hd | hdot
      · exact hd
      · exact absurd hdot (not_sep_of_mem_jsSplit hpmem hc)
    constructor
    · intro c hc
      rcases List.mem_append.mp hc with hcq | hcd
      · exact Or.inl (hq0 c hcq)
      · rcases List.mem_cons.mp hcd with rfl | hcf
        · exact Or.inr rfl
        · obtain ⟨p, hp, hcp⟩ := List.mem_flatten.mp hcf
          exact Or.inl (hqs p hp c hcp)
    · have hcq : q.count '.' = 0 := by
        rw [List.count_eq_zero]
        intro hmem
        have := hq0 _ hmem
        simp at this
      have hcf : (qs.flatten).count '.' = 0 := by
        rw [List.count_eq_zero]
        intro hmem
        obtain ⟨p, hp, hcp⟩ := List.mem_flatten.mp hmem
        have := hqs p hp _ hcp
        simp at this
      simp [List.count_append, List.count_cons, hcq, hcf]
  · rw [if_neg h2]
    refine ⟨h, ?_⟩
    rw [length_jsSplit] at h2
    omega

theorem map_comma_eq_self_of {l : List Char} (h : ∀ c ∈ l, c ≠ ',') :
    l.map (fun c => if c = ',' then '.' else c) = l := by
  induction l with
  | nil => rfl
  | cons c t ih =>
    rw [List.map_cons, if_neg (h c (List.mem_cons_self c t)),
      ih (fun c hc => h c (List.mem_cons_of_mem _ hc))]

theorem digitdot_keep {c : Char} (h : c.isDigit = true ∨ c = '.') :
    (c.isDigit || c == '-' || c == '.') = true := by
  rcases h with hd | rfl
  · simp [hd]
  · simp

theorem digitdot_ne_minus {c : Char} (h : c.isDigit = true ∨ c = '.') :
    (c != '-') = true := by
  rcases h with hd | rfl
  · rw [bne_iff_ne]
    intro e
    rw [e] at hd
    exact absurd hd (by decide)
  · decide

theorem digitdot_ne_comma {c : Char} (h : c.isDigit = true ∨ c = '.') :
    c ≠ ',' := by
  rcases h with hd | rfl
  · intro e
    rw [e] at hd
    exact absurd hd (by decide)
  · decide

/-- The shared invariant: a normalized buffer satisfies the grammar. -/
theorem normalizeInput_good (s : List Char) (m : Mode) :
    goodBuffer (normalizeInput s m) (modeAllowsMinus m) := by
  have hnorm : normalizeInput s m =
      dotCollapse
        (if m = Mode.signedDecimal ∧
            (((s.map (fun c => if c = ',' then '.' else c)).filter
              (fun c => c.isDigit || c == '-' || c == '.')).head? = some '-')
          then '-' :: ((s.map (fun c => if c = ',' then '.' else c)).filter
              (fun c => c.isDigit || c == '-' || c == '.')).filter
              (fun c => c != '-')
          else ((s.map (fun c => if c = ',' then '.' else c)).filter
              (fun c => c.isDigit || c == '-' || c == '.')).filter
              (fun c => c != '-')) := rfl
  set s2 := (s.map (fun c => if c = ',' then '.' else c)).filter
    (fun c => c.isDigit || c == '-' || c == '.') with hs2
  set s3 := s2.filter (fun c => c != '-') with hs3
  have h3 : ∀ c ∈ s3, c.isDigit = true ∨ c = '.' := by
    intro c hc
    have h1 := List.mem_filter.mp hc
    have h2 := (List.mem_filter.mp h1.1).2
    simp only [Bool.or_eq_true, beq_iff_eq] at h2
    rcases h2 with (hd | rfl) | rfl
    · exact Or.inl hd
    · exact absurd h1.2 (by decide)
    · exact Or.inr rfl
  have hdcg := dotCollapse_good h3
  have hdc_not_minus : (dotCollapse s3).head? ≠ some '-' := by
    intro hh
    cases hr : dotCollapse s3 with
    | nil => rw [hr] at hh; cases hh
    | cons a t =>
      rw [hr] at hh
      have ha : a = '-' := by injection hh
      have := hdcg.1 a (hr ▸ List.mem_cons_self a t)
      rw [ha] at this
      rcases this with hd | hdot
      · exact absurd hd (by decide)
      · exact absurd hdot (by decide)
  by_cases hmin : m = Mode.signedDecimal ∧ s2.head? = some '-'
  · rw [hnorm, if_pos hmin, dotCollapse_cons_ne '-' s3 (by decide)]
    refine ⟨fun _ => by rw [hmin.1]; rfl, ?_, ?_⟩
    · intro c hc
      have hb : bodyOf ('-' :: dotCollapse s3) = dotCollapse s3 := by
        simp [bodyOf]
      rw [hb] at hc
      exact hdcg.1 c hc
    · have hb : bodyOf ('-' :: dotCollapse s3) = dotCollapse s3 := by
        simp [bodyOf]
      rw [hb]
      exact hdcg.2
  · rw [hnorm, if_neg hmin]
    refine ⟨fun hh => absurd hh hdc_not_minus, ?_, ?_⟩
    · intro c hc
      have hb : bodyOf (dotCollapse s3) = dotCollapse s3 := by
        simp only [bodyOf, if_neg hdc_not_minus]
      rw [hb] at hc
      exact hdcg.1 c hc
    · have hb : bodyOf (dotCollapse s3) = dotCollapse s3 := by
        simp only [bodyOf, if_neg hdc_not_minus]
      rw [hb]
      exact hdcg.2

/-- The shared fixed-point lemma: a buffer satisfying the grammar is
left unchanged by the normalizer. -/
theorem normalizeInput_fixed {s : List Char} {m : Mode}
    (h : goodBuffer s (modeAllowsMinus m)) : normalizeInput s m = s := by
  obtain ⟨hminus, hchars, hcount⟩ := h
  by_cases hh : s.head? = some '-'
  · obtain ⟨t, rfl⟩ : ∃ t, s = '-' :: t := by
      cases s with
      | nil => cases hh
      | cons a t =>
        have : a = '-' := by injection hh
        exact ⟨t, by rw [this]⟩
    have hbody : bodyOf ('-' :: t) = t := by
      simp [bodyOf]
    rw [hbody] at hchars hcount
    have hm : m = Mode.signedDecimal := by
      cases m with
      | signedDecimal => rfl
      | unsignedDecimal => exact absurd (hminus rfl) (by decide)
    have hmap : ('-' :: t).map (fun c => if c = ',' then '.' else c) =
        '-' :: t := by
      apply map_comma_eq_self_of
      intro c hc
      rcases List.mem_cons.mp hc with rfl | hct
      · decide
      · exact digitdot_ne_comma (hchars c hct)
    have hfil : ('-' :: t).filter
        (fun c => c.isDigit || c == '-' || c == '.') = '-' :: t := by
      rw [List.filter_eq_self]
      intro c hc
      rcases List.mem_cons.mp hc with rfl | hct
      · decide
      · exact digitdot_keep (hchars c hct)
    have hfil2 : ('-' :: t).filter (fun c => c != '-') = t := by
      rw [List.filter_cons]
      simp only [bne_self_eq_false, if_neg]
      rw [List.filter_eq_self.mpr (fun c hc => digitdot_ne_minus (hchars c hc))]
      simp
    show dotCollapse _ = _
    rw [hmap, hfil, hfil2]
    have hcond : m = Mode.signedDecimal ∧
        (('-' :: t) : List Char).head? = some '-' := ⟨hm, rfl⟩
    rw [if_pos hcond]
    apply dotCollapse_of_le
    simp only [List.count_cons]
    rw [if_neg (by decide)]
    simpa using hcount
  · have hbody : bodyOf s = s := by
      simp only [bodyOf, if_neg hh]
    rw [hbody] at hchars hcount
    have hmap : s.map (fun c => if c = ',' then '.' else c) = s :=
      map_comma_eq_self_of (fun c hc => digitdot_ne_comma (hchars c hc))
    have hfil : s.filter (fun c => c.isDigit || c == '-' || c == '.') = s :=
      List.filter_eq_self.mpr (fun c hc => digitdot_keep (hchars c hc))
    have hfil2 : s.filter (fun c => c != '-') = s :=
      List.filter_eq_self.mpr (fun c hc => digitdot_ne_minus (hchars c hc))
    show dotCollapse _ = _
    rw [hmap, hfil, hfil2, if_neg (fun hc => hh hc.2)]
    exact dotCollapse_of_le hcount

/-- C6: for every input and mode the normalized buffer matches the
grammar `-?[0-9]*(\.[0-9]*)?` — only digits, at most one dot, a minus
only leading and only in signed mode — and multiple dots collapse by
keeping the first and concatenating later digit segments, so
`"1.2.3"` normalizes to `"1.23"`. -/
theorem C6_normalize_grammar :
    (∀ (s : List Char) (m : Mode),
      goodBuffer (normalizeInput s m) (modeAllowsMinus m)) ∧
    (∀ m : Mode,
      normalizeInput (("1.2.3" : String).data) m = ("1.23" : String).data) := by
  refine ⟨normalizeInput_good, ?_⟩
  intro m
  cases m <;> decide

/-- C7: the keypad normalizer is idempotent. -/
theorem C7_normalize_idempotent (s : List Char) (m : Mode) :
    normalizeInput (normalizeInput s m) m = normalizeInput s m :=
  normalizeInput_fixed (normalizeInput_good s m)

/-! ## Comma propagation: a comma anywhere makes `Number` return NaN -/

theorem mem_dropWhile_of_mem {p : Char → Bool} {l : List Char} {c : Char}
    (hc : c ∈ l) (hp : p c = false) : c ∈ l.dropWhile p := by
  induction l with
  | nil => cases hc
  | cons a rest ih =>
    rw [List.dropWhile_cons]
    by_cases ha : p a = true
    · rw [if_pos ha]
      rcases List.mem_cons.mp hc with rfl | h
      · rw [hp] at ha
        cases ha
      · exact ih h
    · rw [if_neg ha]
      exact hc

theorem mem_jsTrim_of_mem {l : List Char} {c : Char} (hc : c ∈ l)
    (hw : jsWhitespace c = false) : c ∈ jsTrim l := by
  unfold jsTrim
  rw [List.mem_reverse]
  exact mem_dropWhile_of_mem
    (List.mem_reverse.mpr (mem_dropWhile_of_mem hc hw)) hw

theorem mem_replaceFirst_of_two {l : List Char} {a b : Char}
    (h : 2 ≤ l.count a) : a ∈ replaceFirst l a b := by
  induction l with
  | nil => simp at h
  | cons c rest ih =>
    by_cases hca : c = a
    · subst hca
      simp only [replaceFirst, if_pos rfl]
      have h1 : 1 ≤ rest.count c := by
        rw [List.count_cons_self] at h
        omega
      exact List.mem_cons_of_mem _ (List.count_pos_iff.mp h1)
    · simp only [replaceFirst, if_neg hca]
      rw [List.count_cons_of_ne (fun e => hca e.symm)] at h
      exact List.mem_cons_of_mem _ (ih h)

theorem allDigits_comma {s : List Char} (h : ',' ∈ s) :
    allDigits s = false := by
  rcases hb : allDigits s with _ | _
  · rfl
  · rw [allDigits, List.all_eq_true] at hb
    exact absurd (hb ',' h) (by decide)

theorem exists_part_of_mem (sep : Char) {c : Char} {l : List Char}
    (hc : c ∈ l) (hne : c ≠ sep) : ∃ p ∈ jsSplit sep l, c ∈ p := by
  induction l with
  | nil => cases hc
  | cons a rest ih =>
    rw [jsSplit_cons]
    by_cases ha : a = sep
    · rw [if_pos ha]
      rcases List.mem_cons.mp hc with rfl | h
      · exact absurd ha hne
      · obtain ⟨p, hp, hcp⟩ := ih h
        exact ⟨p, List.mem_cons_of_mem _ hp, hcp⟩
    · rw [if_neg ha]
      obtain ⟨q, qs, hq⟩ := List.exists_cons_of_ne_nil (jsSplit_ne_nil sep rest)
      rw [hq]
      simp only [List.headI, List.tail_cons]
      rcases List.mem_cons.mp hc with rfl | h
      · exact ⟨c :: q, List.mem_cons_self _ _, List.mem_cons_self c q⟩
      · obtain ⟨p, hp, hcp⟩ := ih h
        rw [hq] at hp
        rcases List.mem_cons.mp hp with rfl | hpq
        · exact ⟨a :: p, List.mem_cons_self _ _, List.mem_cons_of_mem _ hcp⟩
        · exact ⟨p, List.mem_cons_of_mem _ hpq, hcp⟩

theorem mantissa?_comma {s : List Char} (h : ',' ∈ s) :
    mantissa? s = none := by
  obtain ⟨p, hp, hcp⟩ := exists_part_of_mem '.' h (by decide)
  rcases hsp : jsSplit '.' s with _ | ⟨ip, _ | ⟨fp, rest⟩⟩
  · exact absurd hsp (jsSplit_ne_nil '.' s)
  · rw [hsp] at hp
    have hpe : p = ip := List.mem_singleton.mp hp
    subst hpe
    simp only [mantissa?, hsp]
    rw [if_neg]
    rintro ⟨-, hd⟩
    rw [allDigits_comma hcp] at hd
    cases hd
  · cases rest with
    | nil =>
      rw [hsp] at hp
      simp only [mantissa?, hsp]
      rw [if_neg]
      rintro ⟨-, hip, hfp⟩
      rcases List.mem_cons.mp hp with rfl | hp2
      · rw [allDigits_comma hcp] at hip
        cases hip
      · have hpe : p = fp := List.mem_singleton.mp hp2
        subst hpe
        rw [allDigits_comma hcp] at hfp
        cases hfp
    | cons p3 prest => simp only [mantissa?, hsp]

theorem expInt?_comma {s : List Char} (h : ',' ∈ s) : expInt? s = none := by
  unfold expInt?
  by_cases h1 : s.head? = some '+'
  · rw [if_pos h1]
    cases s with
    | nil => cases h
    | cons a t =>
      have ha : a = '+' := by injection h1
      rcases List.mem_cons.mp h with rfl | ht
      · rw [ha] at h
        exact absurd ha (by decide)
      · rw [if_neg]
        rintro ⟨-, hd⟩
        rw [List.tail_cons, allDigits_comma ht] at hd
        cases hd
  · rw [if_neg h1]
    by_cases h2 : s.head? = some '-'
    · rw [if_pos h2]
      cases s with
      | nil => cases h
      | cons a t =>
        have ha : a = '-' := by injection h2
        rcases List.mem_cons.mp h with rfl | ht
        · exact absurd ha (by decide)
        · rw [if_neg]
          rintro ⟨-, hd⟩
          rw [List.tail_cons, allDigits_comma ht] at hd
          cases hd
    · rw [if_neg h2, if_neg]
      rintro ⟨-, hd⟩
      rw [allDigits_comma h] at hd
      cases hd

theorem dropWhile_head_false {p : Char → Bool} {l t : List Char} {e0 : Char}
    (h : l.dropWhile p = e0 :: t) : p e0 = false := by
  induction l with
  | nil => cases h
  | cons a rest ih =>
    rw [List.dropWhile_cons] at h
    by_cases ha : p a = true
    · rw [if_pos ha] at h
      exact ih h
    · rw [if_neg ha] at h
      have h1 : a = e0 := by injection h
      subst h1
      cases hb : p a with
      | false => rfl
      | true => exact absurd hb ha

theorem strUnsignedDecimal?_comma {s : List Char} (h : ',' ∈ s) :
    strUnsignedDecimal? s = none := by
  have hsplit : s.takeWhile notExpChar ++ s.dropWhile notExpChar = s :=
    List.takeWhile_append_dropWhile notExpChar s
  rcases List.mem_append.mp (hsplit ▸ h) with hm | he
  · have hmant := mantissa?_comma hm
    cases hd : s.dropWhile notExpChar with
    | nil => simp only [strUnsignedDecimal?, hd, hmant]
    | cons e0 expPart =>
      simp only [strUnsignedDecimal?, hd, hmant]
  · cases hd : s.dropWhile notExpChar with
    | nil =>
      rw [hd] at he
      cases he
    | cons e0 expPart =>
      rw [hd] at he
      have he0 : notExpChar e0 = false := dropWhile_head_false hd
      rcases List.mem_cons.mp he with rfl | hexp
      · exact absurd he0 (by decide)
      · simp only [strUnsignedDecimal?, hd, expInt?_comma hexp]
        cases mantissa? (s.takeWhile notExpChar) <;> rfl

theorem strSignedPart_comma {neg : Bool} {r : List Char} (h : ',' ∈ r) :
    strSignedPart neg r = JsNum.nan := by
  unfold strSignedPart
  rw [if_neg, strUnsignedDecimal?_comma h]
  intro e
  rw [e] at h
  exact absurd h (by decide)

theorem radixNat?_comma {base : Nat} {s : List Char} (h : ',' ∈ s) :
    radixNat? base s = none := by
  unfold radixNat?
  rw [if_neg]
  rintro ⟨-, hall⟩
  rw [List.all_eq_true] at hall
  have hr : isRadixDigit base ',' = true := hall ',' h
  rw [show isRadixDigit base ',' = false from rfl] at hr
  cases hr

theorem comma_strNumericValue {v : List Char} (h : ',' ∈ v) :
    strNumericValue v = JsNum.nan := by
  have hne : v ≠ [] := List.ne_nil_of_mem h
  have hsplitv : v.take 2 ++ v.drop 2 = v := List.take_append_drop 2 v
  have hdrop : ∀ a b : Char, v.take 2 = [a, b] → ',' ≠ a → ',' ≠ b →
      ',' ∈ v.drop 2 := by
    intro a b he hna hnb
    rcases List.mem_append.mp (hsplitv ▸ h) with h1 | h2
    · rw [he] at h1
      rcases List.mem_cons.mp h1 with e | h1'
      · exact absurd e hna
      · exact absurd (List.mem_singleton.mp h1') hnb
    · exact h2
  unfold strNumericValue
  rw [if_neg hne]
  by_cases hx : v.take 2 = ['0', 'x'] ∨ v.take 2 = ['0', 'X']
  · rw [if_pos hx]
    have hcd : ',' ∈ v.drop 2 := by
      rcases hx with e | e
      · exact hdrop _ _ e (by decide) (by decide)
      · exact hdrop _ _ e (by decide) (by decide)
    rw [radixNat?_comma hcd]
  · rw [if_neg hx]
    by_cases ho : v.take 2 = ['0', 'o'] ∨ v.take 2 = ['0', 'O']
    · rw [if_pos ho]
      have hcd : ',' ∈ v.drop 2 := by
        rcases ho with e | e
        · exact hdrop _ _ e (by decide) (by decide)
        · exact hdrop _ _ e (by decide) (by decide)
      rw [radixNat?_comma hcd]
    · rw [if_neg ho]
      by_cases hb : v.take 2 = ['0', 'b'] ∨ v.take 2 = ['0', 'B']
      · rw [if_pos hb]
        have hcd : ',' ∈ v.drop 2 := by
          rcases hb with e | e
          · exact hdrop _ _ e (by decide) (by decide)
          · exact hdrop _ _ e (by decide) (by decide)
        rw [radixNat?_comma hcd]
      · rw [if_neg hb]
        by_cases hp : v.head? = some '+'
        · rw [if_pos hp]
          cases v with
          | nil => cases h
          | cons a t =>
            have ha : a = '+' := by injection hp
            rcases List.mem_cons.mp h with rfl | ht
            · exact absurd ha (by decide)
            · exact strSignedPart_comma ht
        · rw [if_neg hp]
          by_cases hm : v.head? = some '-'
          · rw [if_pos hm]
            cases v with
            | nil => cases h
            | cons a t =>
              have ha : a = '-' := by injection hm
              rcases List.mem_cons.mp h with rfl | ht
              · exact absurd ha (by decide)
              · exact strSignedPart_comma ht
          · rw [if_neg hm]
            exact strSignedPart_comma h

theorem comma_jsNumber {u : List Char} (h : ',' ∈ u) :
    jsNumber u = JsNum.nan :=
  comma_strNumericValue (mem_jsTrim_of_mem h (by decide))

/-! ## The parser and classifier claims -/

/-- C5: the numeric parser distinguishes exactly three outcomes — empty
or whitespace-only input gives the empty marker, a bare `-`, `.` or
`-.` (after trimming) gives the invalid marker, and any other input is
converted by replacing the first comma with a period and applying
`Number`, with non-finite or unparseable results invalid and finite
results returned as values, e.g. `parseNumber "3,5" = 3.5`. -/
theorem C5_parse_three_way :
    (∀ s : List Char, jsTrim s = [] → parseNumber s = ParseResult.empty) ∧
    (∀ s : List Char,
      jsTrim s = ['-'] ∨ jsTrim s = ['.'] ∨ jsTrim s = ['-', '.'] →
      parseNumber s = ParseResult.invalid) ∧
    (∀ s : List Char, jsTrim s ≠ [] →
      ¬(jsTrim s = ['-'] ∨ jsTrim s = ['.'] ∨ jsTrim s = ['-', '.']) →
      parseNumber s =
        match jsNumber (replaceFirst (jsTrim s) ',' '.') with
        | JsNum.val q => ParseResult.val q
        | _ => ParseResult.invalid) ∧
    parseNumber (("3,5" : String).data) = ParseResult.val (7 / 2) ∧
    parseNumber (("Infinity" : String).data) = ParseResult.invalid := by
  refine ⟨?_, ?_, ?_, ?_, by decide⟩
  · intro s h
    simp only [parseNumber, h, if_pos]
  · intro s h
    have hne : jsTrim s ≠ [] := by
      rcases h with h | h | h <;> rw [h] <;> decide
    simp only [parseNumber, if_neg hne, if_pos h]
  · intro s h1 h2
    simp only [parseNumber, if_neg h1, if_neg h2]
  · have h : parseNumber (("3,5" : String).data) =
        ParseResult.val ((natVal ['3'] : ℚ) +
          (natVal ['5'] : ℚ) / (10 : ℚ) ^ ([('5' : Char)].length)) := rfl
    have h3 : natVal ['3'] = 3 := by decide
    have h5 : natVal ['5'] = 5 := by decide
    rw [h, h3, h5]
    norm_num

theorem C5_parse_three_way_witness :
    parseNumber ((" " : String).data) = ParseResult.empty ∧
    parseNumber ((" -  " : String).data) = ParseResult.invalid ∧
    parseNumber (("x7" : String).data) = ParseResult.invalid :=
  ⟨C5_parse_three_way.1 _ (by decide),
    C5_parse_three_way.2.1 _ (Or.inl (by decide)),
    (C5_parse_three_way.2.2.1 (("x7" : String).data)
      (by decide) (by decide)).trans (by decide)⟩

/-- C10: `parseNumber` replaces only the first comma (JavaScript
`replace` with a string pattern), so any trimmed input with two or more
commas still contains a comma after the replacement and is invalid —
unlike `normalizeInput`, which replaces every comma (`/,/g`), so
`"1,2,3"` normalizes to `"1.23"` but fails to parse. -/
theorem C10_first_comma_only :
    (∀ s : List Char, 2 ≤ (jsTrim s).count ',' →
      parseNumber s = ParseResult.invalid) ∧
    parseNumber (("1,2,3" : String).data) = ParseResult.invalid ∧
    (∀ m : Mode,
      normalizeInput (("1,2,3" : String).data) m = ("1.23" : String).data) := by
  refine ⟨?_, by decide, by intro m; cases m <;> decide⟩
  intro s h
  have hne : jsTrim s ≠ [] := by
    intro e
    rw [e] at h
    exact absurd h (by decide)
  have hnb : ¬(jsTrim s = ['-'] ∨ jsTrim s = ['.'] ∨
      jsTrim s = ['-', '.']) := by
    rintro (e | e | e) <;> rw [e] at h <;> exact absurd h (by decide)
  simp only [parseNumber, if_neg hne, if_neg hnb,
    comma_jsNumber (mem_replaceFirst_of_two h)]

theorem C10_first_comma_only_witness :
    parseNumber ((" 1,0,5 " : String).data) = ParseResult.invalid :=
  C10_first_comma_only.1 ((" 1,0,5 " : String).data) (by decide)

/-- C3: the classifier returns the most severe tier exactly when it was
already there — a `damaged` current status is sticky for every
temperature input and range, and a non-`damaged` current status is
never automatically escalated to `damaged`. -/
theorem C3_damaged_sticky :
    (∀ (temp : List Char) (minT maxT : Option ℚ),
      classify temp Status.damaged minT maxT = Status.damaged) ∧
    (∀ (temp : List Char) (st : Status) (minT maxT : Option ℚ),
      st ≠ Status.damaged →
      classify temp st minT maxT ≠ Status.damaged) := by
  constructor
  · intro temp minT maxT
    cases hp : parseNumber temp with
    | empty => simp [classify, hp]
    | invalid => simp [classify, hp]
    | val t => simp [classify, hp]
  · intro temp st minT maxT hst
    cases hp : parseNumber temp with
    | empty => simpa [classify, hp] using hst
    | invalid => simpa [classify, hp] using hst
    | val t =>
      simp only [classify, hp, if_neg hst]
      by_cases hb : minT = none ∧ maxT = none
      · simp [hb]
      · rw [if_neg hb]
        by_cases hw : isLowTemp t minT || isHighTemp t maxT
        · simp [hw]
        · simp [hw]

theorem C3_damaged_sticky_witness :
    classify (("10" : String).data) Status.ok (some 2) (some 8) ≠
      Status.damaged :=
  C3_damaged_sticky.2 (("10" : String).data) Status.ok (some 2) (some 8)
    (by decide)

/-- C4: with a successfully parsed temperature and a non-`damaged`
status, an absent pair of bounds yields `ok`, and otherwise the result
is `warning` exactly when the value is strictly below a present lower
bound or strictly above a present upper bound, `ok` otherwise; with
range `(2, 8)`: 10 and 1 give `warning`, 5 gives `ok`, and the
boundary values 2 and 8 give `ok` (strict comparisons). -/
theorem C4_threshold_classification :
    (∀ (s : List Char) (t : ℚ) (st : Status) (minT maxT : Option ℚ),
      parseNumber s = ParseResult.val t → st ≠ Status.damaged →
      ((minT = none ∧ maxT = none → classify s st minT maxT = Status.ok) ∧
        (¬(minT = none ∧ maxT = none) →
          (classify s st minT maxT = Status.warning ↔
            (∃ m ∈ minT, t < m) ∨ (∃ M ∈ maxT, M < t)) ∧
          (classify s st minT maxT = Status.ok ↔
            ¬((∃ m ∈ minT, t < m) ∨ (∃ M ∈ maxT, M < t)))))) ∧
    classify (("10" : String).data) Status.ok (some 2) (some 8) =
      Status.warning ∧
    classify (("5" : String).data) Status.ok (some 2) (some 8) =
      Status.ok ∧
    classify (("1" : String).data) Status.ok (some 2) (some 8) =
      Status.warning ∧
    classify (("2" : String).data) Status.ok (some 2) (some 8) =
      Status.ok ∧
    classify (("8" : String).data) Status.ok (some 2) (some 8) =
      Status.ok := by
  refine ⟨?_, by decide, by decide, by decide, by decide, by decide⟩
  intro s t st minT maxT hp hst
  have hiff : (isLowTemp t minT || isHighTemp t maxT) = true ↔
      (∃ m ∈ minT, t < m) ∨ (∃ M ∈ maxT, M < t) := by
    rw [Bool.or_eq_true]
    constructor
    · rintro (hl | hh)
      · cases minT with
        | none => cases hl
        | some m =>
          exact Or.inl ⟨m, rfl, of_decide_eq_true hl⟩
      · cases maxT with
        | none => cases hh
        | some M =>
          exact Or.inr ⟨M, rfl, of_decide_eq_true hh⟩
    · rintro (⟨m, hm, hlt⟩ | ⟨M, hM, hlt⟩)
      · cases minT with
        | none => cases hm
        | some m' =>
          have : m' = m := by
            have := Option.mem_def.mp hm
            injection this
          subst this
          exact Or.inl (decide_eq_true hlt)
      · cases maxT with
        | none => cases hM
        | some M' =>
          have : M' = M := by
            have := Option.mem_def.mp hM
            injection this
          subst this
          exact Or.inr (decide_eq_true hlt)
  constructor
  · intro hb
    simp only [classify, hp, if_neg hst, if_pos hb]
  · intro hb
    simp only [classify, hp, if_neg hst, if_neg hb]
    by_cases hw : isLowTemp t minT || isHighTemp t maxT
    · rw [if_pos hw]
      constructor
      · exact ⟨fun _ => hiff.mp hw, fun _ => rfl⟩
      · constructor
        · intro e
          cases e
        · intro hn
          exact absurd (hiff.mp hw) hn
    · rw [if_neg hw]
      have hnot : ¬((∃ m ∈ minT, t < m) ∨ (∃ M ∈ maxT, M < t)) := by
        intro hex
        exact hw (hiff.mpr hex)
      constructor
      · constructor
        · intro e
          cases e
        · intro hex
          exact absurd hex hnot
      · exact ⟨fun _ => hnot, fun _ => rfl⟩

theorem C4_threshold_classification_witness :
    classify (("7" : String).data) Status.ok none none = Status.ok :=
  ((C4_threshold_classification.1 (("7" : String).data) 7 Status.ok none none
    (by decide) (by decide)).1) ⟨rfl, rfl⟩

end TempApp
